import Mathlib

/-!
Shallow embedding of the daterange library (src/daterange/__init__.py):
a lazy date-range iterator (class DateRange) and a duration-string parser
(class delta).  Temporal values and timedeltas are modelled as integers
counting microseconds (datetime.timedelta normalises to integer days,
seconds and microseconds, and equality and order on dates and timedeltas
agree with the order on total microseconds).  String scanning is modelled
on lists of characters, following Python re semantics for the two anchored
patterns the source uses.
-/

set_option maxHeartbeats 1000000

deriving instance DecidableEq for Except

namespace Daterange

/-- Python whitespace class: the characters stripped by str.strip and
matched by the regex class for spaces. -/
def isSpaceChar (c : Char) : Bool :=
  decide (c = ' ' ∨ c = '\t' ∨ c = '\n' ∨ c = '\r' ∨ c = '\x0b' ∨ c = '\x0c')

/-- Word characters (ASCII): letters, digits and underscore. -/
def isWordChar (c : Char) : Bool :=
  c.isAlpha || c.isDigit || c = '_'

/-- str.strip: drop surrounding whitespace. -/
def pyStrip (cs : List Char) : List Char :=
  ((cs.dropWhile isSpaceChar).reverse.dropWhile isSpaceChar).reverse

/-- str.split on a comma: every comma separates, empty pieces are kept. -/
def splitComma : List Char → List (List Char)
  | [] => [[]]
  | c :: rest =>
    match splitComma rest with
    | [] => [[c]]
    | g :: gs => if c = ',' then [] :: g :: gs else (c :: g) :: gs

/-- int() on a digit string. -/
def natOfDigits (cs : List Char) : Nat :=
  cs.foldl (fun n c => 10 * n + (c.toNat - '0'.toNat)) 0

/-- The end anchor of Python re matches at the end of the string or just
before a single trailing newline, so a trailing newline is peeled off
before an anchored match. -/
def dollarBody (cs : List Char) : List Char :=
  match cs.getLast? with
  | some c => if c = '\n' then cs.dropLast else cs
  | none => cs

/-- re.match of the anchored digits-only pattern used for string steps,
returning the digit group. -/
def reDigitsMatch (cs : List Char) : Option (List Char) :=
  let t := dollarBody cs
  if t ≠ [] ∧ t.all Char.isDigit then some t else none

/-- One backtracking attempt of the specifier pattern: with the digit group
fixed, skip whitespace greedily and require the nonempty remainder to be
word characters. -/
def trySplit (a rest : List Char) : Option (List Char × List Char) :=
  let tail := rest.dropWhile isSpaceChar
  if tail ≠ [] ∧ tail.all isWordChar then some (a, tail) else none

/-- Backtracking loop of the specifier pattern: the digit group starts
maximal (given reversed) and shrinks one digit at a time. -/
def specGo : List Char → List Char → Option (List Char × List Char)
  | [], _ => none
  | c :: ra, rest =>
    match trySplit ((c :: ra).reverse) rest with
    | some r => some r
    | none => specGo ra (c :: rest)

/-- re.match of the anchored specifier pattern (digits, optional whitespace,
word characters) with the group choice the backtracking engine makes. -/
def specMatch (cs : List Char) : Option (List Char × List Char) :=
  specGo ((dollarBody cs).takeWhile Char.isDigit).reverse
    ((dollarBody cs).dropWhile Char.isDigit)

/-- delta.UNIT_NAMES: canonical unit names and their short aliases. -/
def UNIT_NAMES : List (String × List String) :=
  [("days", ["d", "day"]),
   ("hours", ["h", "hr", "hrs", "hour"]),
   ("minutes", ["m", "min", "mins", "minute"]),
   ("seconds", ["s", "sec", "secs", "second"]),
   ("microseconds", ["ms", "microsec", "microsecs", "microsecond"])]

/-- delta.UNIT_ALIASES: UNIT_NAMES turned inside-out, every alias pointing
to its canonical name, and every canonical name pointing to itself. -/
def UNIT_ALIASES : List (String × String) :=
  UNIT_NAMES.foldl
    (fun acc p => (acc ++ p.2.map (fun a => (a, p.1))) ++ [(p.1, p.1)]) []

/-- dict.get on the alias table. -/
def lookupAlias (a : String) : Option String :=
  (UNIT_ALIASES.find? (fun p => p.1 == a)).map (fun p => p.2)

/-- str.lower, per character (ASCII). -/
def lowerChars (cs : List Char) : List Char :=
  cs.map Char.toLower

/-- The two ValueError kinds raised by the delta parser, named as in the
specification. -/
inductive DeltaError where
  | invalidSpecifier
  | invalidUnit
deriving DecidableEq

/-- Parsing of one stripped specifier: match the pattern, lowercase the
unit group, look it up; yields the canonical unit and the number. -/
def parseSpecifier (sp : List Char) : Except DeltaError (String × Nat) :=
  match specMatch sp with
  | none => .error .invalidSpecifier
  | some (ds, us) =>
    match lookupAlias (String.mk (lowerChars us)) with
    | none => .error .invalidUnit
    | some cname => .ok (cname, natOfDigits ds)

/-- The accumulator dict of delta: canonical unit name to running total,
missing keys reading as 0. -/
def Kwargs : Type := String → Nat

def emptyKwargs : Kwargs := fun _ => 0

/-- kwargs update: kwargs gets at the key, adds, and stores back. -/
def updateKwargs (k : Kwargs) (u : String) (n : Nat) : Kwargs :=
  fun x => if x = u then k x + n else k x

/-- The specifier loop of delta: left to right, first failure wins. -/
def deltaLoop : List (List Char) → Kwargs → Except DeltaError Kwargs
  | [], acc => .ok acc
  | sp :: sps, acc =>
    match parseSpecifier sp with
    | .error e => .error e
    | .ok (u, n) => deltaLoop sps (updateKwargs acc u n)

def usPerDay : Int := 86400000000

def usPerHour : Int := 3600000000

def usPerMinute : Int := 60000000

def usPerSecond : Int := 1000000

/-- datetime.timedelta(**kwargs) for integer keyword arguments, as total
microseconds. -/
def timedeltaOfKwargs (k : Kwargs) : Int :=
  (k "days") * usPerDay + (k "hours") * usPerHour + (k "minutes") * usPerMinute
    + (k "seconds") * usPerSecond + (k "microseconds")

/-- delta.__new__: split the spec on commas, strip each specifier, run the
loop, and build the timedelta. -/
def delta (s : String) : Except DeltaError Int :=
  match deltaLoop ((splitComma s.data).map pyStrip) emptyKwargs with
  | .error e => .error e
  | .ok kw => .ok (timedeltaOfKwargs kw)

/-- The step argument of DateRange: an integer, a string, or a timedelta. -/
inductive StepArg where
  | int : Int → StepArg
  | str : String → StepArg
  | td : Int → StepArg
deriving DecidableEq

/-- The TypeError raised by DateRange.__init__ when the step does not
resolve to a timedelta (InvalidStepError in the specification). -/
inductive RangeError where
  | invalidStep
deriving DecidableEq

/-- The state of a DateRange instance: the current date, the bound captured
by the stop-condition closure (none for an unbounded range), and the
resolved step. -/
structure DateRange where
  date : Int
  toBound : Option Int
  step : Int
deriving DecidableEq

/-- Step resolution in DateRange.__init__: integers count days; a string
matching the digits-only pattern counts days; any other string is handed
to delta, and a parse failure is swallowed, leaving the string in place. -/
def resolveStep : StepArg → StepArg
  | .int n => .td (n * usPerDay)
  | .str s =>
    match reDigitsMatch s.data with
    | some ds => .td ((natOfDigits ds : Int) * usPerDay)
    | none =>
      match delta s with
      | .ok t => .td t
      | .error _ => .str s
  | .td t => .td t

/-- DateRange.__init__: store the date and the stop-condition bound,
resolve the step, and reject anything that is not a timedelta. -/
def DateRange.init (date : Int) (toBound : Option Int) (step : StepArg) :
    Except RangeError DateRange :=
  match resolveStep step with
  | .td t => .ok ⟨date, toBound, t⟩
  | _ => .error .invalidStep

/-- The stop condition: constantly true when no bound was given, otherwise
the current value must not exceed the bound. -/
def DateRange.condition (r : DateRange) (d : Int) : Bool :=
  match r.toBound with
  | none => true
  | some b => decide (d ≤ b)

/-- DateRange.next: if the condition holds for the current date, return it
and advance the state by the step; otherwise StopIteration is raised
(modelled as none) and the state is left untouched. -/
def DateRange.next (r : DateRange) : Option Int × DateRange :=
  if r.condition r.date then (some r.date, ⟨r.date + r.step, r.toBound, r.step⟩)
  else (none, r)

/-- The state after n advancement calls (a failed call leaves the state as
it was). -/
def advanceN : Nat → DateRange → DateRange
  | 0, r => r
  | n + 1, r => advanceN n (r.next).2

/-- Up to n advancement calls, collecting the produced values and stopping
at the first exhaustion signal. -/
def takeRange : Nat → DateRange → List Int × DateRange
  | 0, r => ([], r)
  | n + 1, r =>
    match r.next with
    | (some v, r1) =>
      let p := takeRange n r1
      (v :: p.1, p.2)
    | (none, _) => ([], r)

/-- Modelled from the spec: the specifier shape the specification describes,
one or more digits, optional whitespace, then a unit token consisting of
letters only (for comparison against the shape the code accepts). -/
def lettersOnlyShapeSpec (cs : List Char) : Bool :=
  let ds := cs.takeWhile Char.isDigit
  let r2 := (cs.dropWhile Char.isDigit).dropWhile isSpaceChar
  !ds.isEmpty && !r2.isEmpty && r2.all Char.isAlpha

/-- The shape actually accepted by the specifier pattern of the code:
digits, optional whitespace, then a nonempty run of word characters. -/
def WordShape (cs : List Char) : Prop :=
  ∃ ds ws us, cs = ds ++ ws ++ us ∧ ds ≠ [] ∧ (∀ c ∈ ds, Char.isDigit c) ∧
    (∀ c ∈ ws, isSpaceChar c) ∧ us ≠ [] ∧ (∀ c ∈ us, isWordChar c)

/-! Character-class facts. -/

theorem spaceChar_cases {c : Char} (h : isSpaceChar c = true) :
    c = ' ' ∨ c = '\t' ∨ c = '\n' ∨ c = '\r' ∨ c = '\x0b' ∨ c = '\x0c' :=
  of_decide_eq_true h

theorem space_not_digit {c : Char} (h : isSpaceChar c = true) : Char.isDigit c = false := by
  rcases spaceChar_cases h with rfl | rfl | rfl | rfl | rfl | rfl <;> decide

theorem space_not_word {c : Char} (h : isSpaceChar c = true) : isWordChar c = false := by
  rcases spaceChar_cases h with rfl | rfl | rfl | rfl | rfl | rfl <;> decide

theorem digit_not_space {c : Char} (h : Char.isDigit c = true) : isSpaceChar c = false := by
  cases hs : isSpaceChar c
  · rfl
  · rw [space_not_digit hs] at h
    exact Bool.noConfusion h

theorem word_not_space {c : Char} (h : isWordChar c = true) : isSpaceChar c = false := by
  cases hs : isSpaceChar c
  · rfl
  · rw [space_not_word hs] at h
    exact Bool.noConfusion h

theorem digit_word {c : Char} (h : Char.isDigit c = true) : isWordChar c = true := by
  simp [isWordChar, h]

theorem alpha_word {c : Char} (h : Char.isAlpha c = true) : isWordChar c = true := by
  simp [isWordChar, h]

theorem digit_ne_comma {c : Char} (h : Char.isDigit c = true) : c ≠ ',' := by
  intro hc
  subst hc
  exact absurd h (by decide)

theorem word_ne_comma {c : Char} (h : isWordChar c = true) : c ≠ ',' := by
  intro hc
  subst hc
  exact absurd h (by decide)

theorem digit_ne_newline {c : Char} (h : Char.isDigit c = true) : c ≠ '\n' := by
  intro hc
  subst hc
  exact absurd h (by decide)

theorem word_ne_newline {c : Char} (h : isWordChar c = true) : c ≠ '\n' := by
  intro hc
  subst hc
  exact absurd h (by decide)

/-! List scanning helpers. -/

theorem mem_of_getLastOpt {l : List Char} {c : Char} (h : l.getLast? = some c) : c ∈ l := by
  obtain ⟨hne, rfl⟩ := List.mem_getLast?_eq_getLast (Option.mem_def.2 h)
  exact List.getLast_mem hne

theorem takeWhile_append_cons {p : Char → Bool} (l₁ : List Char) (c : Char) (l₂ : List Char)
    (h : ∀ x ∈ l₁, p x = true) (hc : p c = false) :
    (l₁ ++ c :: l₂).takeWhile p = l₁ := by
  induction l₁ with
  | nil => simp [List.takeWhile_cons, hc]
  | cons a l ih =>
    have ha : p a = true := h a (by simp)
    simp only [List.cons_append, List.takeWhile_cons, ha, if_true]
    rw [ih (fun x hx => h x (by simp [hx]))]

theorem dropWhile_append_cons {p : Char → Bool} (l₁ : List Char) (c : Char) (l₂ : List Char)
    (h : ∀ x ∈ l₁, p x = true) (hc : p c = false) :
    (l₁ ++ c :: l₂).dropWhile p = c :: l₂ := by
  induction l₁ with
  | nil => simp [List.dropWhile_cons, hc]
  | cons a l ih =>
    have ha : p a = true := h a (by simp)
    simp only [List.cons_append, List.dropWhile_cons, ha, if_true]
    exact ih (fun x hx => h x (by simp [hx]))

theorem dropWhile_append_all {p : Char → Bool} (l₁ l₂ : List Char)
    (h : ∀ x ∈ l₁, p x = true) :
    (l₁ ++ l₂).dropWhile p = l₂.dropWhile p := by
  induction l₁ with
  | nil => rfl
  | cons a l ih =>
    have ha : p a = true := h a (by simp)
    simp only [List.cons_append, List.dropWhile_cons, ha, if_true]
    exact ih (fun x hx => h x (by simp [hx]))

theorem dropWhile_cons_false {p : Char → Bool} {c : Char} (l : List Char) (hc : p c = false) :
    (c :: l).dropWhile p = c :: l := by
  simp [List.dropWhile_cons, hc]

/-! DateRange helpers. -/

theorem init_td (d : Int) (tb : Option Int) (S : Int) :
    DateRange.init d tb (.td S) = .ok ⟨d, tb, S⟩ := rfl

theorem init_ok_elim {d : Int} {tb : Option Int} {st : StepArg} {r : DateRange}
    (h : DateRange.init d tb st = .ok r) :
    ∃ t, resolveStep st = .td t ∧ r = ⟨d, tb, t⟩ := by
  cases hres : resolveStep st with
  | int n =>
    rw [DateRange.init, hres] at h
    exact Except.noConfusion h
  | str s =>
    rw [DateRange.init, hres] at h
    exact Except.noConfusion h
  | td t =>
    rw [DateRange.init, hres] at h
    injection h with h
    exact ⟨t, rfl, h.symm⟩

theorem next_of_le {d b S : Int} (h : d ≤ b) :
    DateRange.next ⟨d, some b, S⟩ = (some d, ⟨d + S, some b, S⟩) := by
  simp [DateRange.next, DateRange.condition, h]

theorem next_of_gt {d b S : Int} (h : b < d) :
    DateRange.next ⟨d, some b, S⟩ = (none, ⟨d, some b, S⟩) := by
  simp [DateRange.next, DateRange.condition, not_le.2 h]

theorem next_unbounded (d S : Int) :
    DateRange.next ⟨d, none, S⟩ = (some d, ⟨d + S, none, S⟩) := by
  simp [DateRange.next, DateRange.condition]

theorem next_none_snd {r : DateRange} (h : (r.next).1 = none) : (r.next).2 = r := by
  by_cases hc : r.condition r.date = true
  · rw [DateRange.next, if_pos hc] at h
    exact Option.noConfusion h
  · rw [DateRange.next, if_neg hc]

theorem next_snd_ne {r : DateRange} (h : (r.next).2 ≠ r) : ∃ v, (r.next).1 = some v := by
  by_cases hc : r.condition r.date = true
  · exact ⟨r.date, by rw [DateRange.next, if_pos hc]⟩
  · exact absurd (by rw [DateRange.next, if_neg hc]) h

theorem advanceN_of_next_none {r : DateRange} (h : (r.next).1 = none) :
    ∀ n, advanceN n r = r := by
  intro n
  induction n with
  | zero => rfl
  | succ n ih =>
    show advanceN n (r.next).2 = r
    rw [next_none_snd h]
    exact ih

theorem advanceN_unbounded (S : Int) : ∀ (n : Nat) (d : Int),
    advanceN n ⟨d, none, S⟩ = ⟨d + (n : Int) * S, none, S⟩ := by
  intro n
  induction n with
  | zero => intro d; simp [advanceN]
  | succ n ih =>
    intro d
    show advanceN n (DateRange.next ⟨d, none, S⟩).2 = _
    rw [next_unbounded d S]
    rw [ih (d + S)]
    simp only [DateRange.mk.injEq, and_true]
    push_cast
    ring

theorem takeRange_exhausted {d b S : Int} (h : b < d) :
    ∀ m, takeRange m ⟨d, some b, S⟩ = ([], ⟨d, some b, S⟩) := by
  intro m
  cases m with
  | zero => rfl
  | succ n => simp [takeRange, next_of_gt h]

theorem takeRange_closed {b S : Int} (hS : 0 < S) :
    ∀ (m j : Nat) (d : Int), b - d = (j : Int) * S →
      takeRange m ⟨d, some b, S⟩ =
        ((List.range (min m (j + 1))).map (fun i : Nat => d + (i : Int) * S),
          ⟨d + ((min m (j + 1) : Nat) : Int) * S, some b, S⟩) := by
  intro m
  induction m with
  | zero =>
    intro j d _
    simp [takeRange]
  | succ m ih =>
    intro j d hj
    have hdb : d ≤ b := by
      have h0 : (0 : Int) ≤ (j : Int) * S :=
        mul_nonneg (Int.natCast_nonneg j) (le_of_lt hS)
      rw [← hj] at h0
      linarith
    have hnext : DateRange.next ⟨d, some b, S⟩ = (some d, ⟨d + S, some b, S⟩) :=
      next_of_le hdb
    cases j with
    | zero =>
      have hb : b = d := by
        have : b - d = 0 := by simpa using hj
        linarith
      have hlt : b < d + S := by linarith
      have ht : takeRange m ⟨d + S, some b, S⟩ = ([], ⟨d + S, some b, S⟩) :=
        takeRange_exhausted hlt m
      have h1 : List.range 1 = [0] := rfl
      simp [takeRange, hnext, ht, h1]
    | succ jj =>
      have hj1 : b - d = ((jj : Int) + 1) * S := by
        rw [hj]
        push_cast
        ring
      have hj2 : b - (d + S) = (jj : Int) * S := by
        have he : ((jj : Int) + 1) * S = (jj : Int) * S + S := by ring
        rw [he] at hj1
        linarith
      have hrec := ih jj (d + S) hj2
      simp only [takeRange, hnext, hrec, Nat.succ_min_succ, Prod.mk.injEq]
      refine ⟨?_, ?_⟩
      · rw [List.range_succ_eq_map, List.map_cons, List.map_map]
        simp only [List.cons.injEq]
        refine ⟨by simp, ?_⟩
        refine List.map_congr_left ?_
        intro i _
        simp only [Function.comp_apply]
        push_cast
        ring
      · simp only [DateRange.mk.injEq, and_true]
        push_cast
        ring

/-- C1: a bounded range whose span (bound minus start) is a non-negative
exact multiple k of a positive step S produces exactly (bound-start)/S + 1
= k + 1 values, every value is at most the bound, the bound itself is
produced, and the advancement after the last value signals exhaustion. -/
theorem c1_bounded_inclusive_count {start bound S : Int} {k : Nat} {r : DateRange}
    (hS : 0 < S) (hk : bound - start = (k : Int) * S)
    (hinit : DateRange.init start (some bound) (.td S) = .ok r) :
    (bound - start) / S = (k : Int) ∧
    (∀ m : Nat, ((takeRange m r).1).length = min m (k + 1)) ∧
    (∀ v ∈ (takeRange (k + 1) r).1, v ≤ bound) ∧
    bound ∈ (takeRange (k + 1) r).1 ∧
    (((takeRange (k + 1) r).2).next).1 = none := by
  have hr : r = ⟨start, some bound, S⟩ := by
    rw [init_td] at hinit
    injection hinit with h
    exact h.symm
  subst hr
  have hcf := takeRange_closed (b := bound) (S := S) hS
  refine ⟨?_, ?_, ?_, ?_, ?_⟩
  · rw [hk]
    exact Int.mul_ediv_cancel _ (ne_of_gt hS)
  · intro m
    rw [hcf m k start hk]
    simp
  · intro v hv
    rw [hcf (k + 1) k start hk] at hv
    simp only [min_self, List.mem_map, List.mem_range] at hv
    obtain ⟨i, hi, rfl⟩ := hv
    have hi' : (i : Int) ≤ (k : Int) := by exact_mod_cast Nat.lt_succ_iff.1 hi
    have hmul : (i : Int) * S ≤ (k : Int) * S :=
      mul_le_mul_of_nonneg_right hi' (le_of_lt hS)
    linarith
  · rw [hcf (k + 1) k start hk]
    simp only [min_self, List.mem_map, List.mem_range]
    exact ⟨k, Nat.lt_succ_self k, by linarith⟩
  · rw [hcf (k + 1) k start hk]
    have hmin : ((min (k + 1) (k + 1) : Nat) : Int) = (k : Int) + 1 := by simp
    rw [hmin]
    have hlt : bound < start + ((k : Int) + 1) * S := by
      have he : ((k : Int) + 1) * S = (k : Int) * S + S := by ring
      rw [he]
      linarith
    rw [next_of_gt hlt]

theorem c1_bounded_inclusive_count_witness :
    ((takeRange 3 (⟨0, some 4, 2⟩ : DateRange)).1).length = min 3 (2 + 1) ∧
    (4 : Int) ∈ (takeRange 3 (⟨0, some 4, 2⟩ : DateRange)).1 :=
  ⟨(@c1_bounded_inclusive_count 0 4 2 2 ⟨0, some 4, 2⟩
      (by decide) (by decide) (by decide)).2.1 3,
   (@c1_bounded_inclusive_count 0 4 2 2 ⟨0, some 4, 2⟩
      (by decide) (by decide) (by decide)).2.2.2.1⟩

/-- C2: once an advancement call on a bounded range signals exhaustion,
every later advancement call still signals exhaustion. -/
theorem c2_exhaustion_idempotent {r : DateRange} {b : Int}
    (_hb : r.toBound = some b) (h : (r.next).1 = none) :
    ∀ n : Nat, ((advanceN n r).next).1 = none := by
  intro n
  rw [advanceN_of_next_none h n]
  exact h

theorem c2_exhaustion_idempotent_witness :
    ((advanceN 2 (⟨5, some 3, 1⟩ : DateRange)).next).1 = none :=
  c2_exhaustion_idempotent (b := 3) rfl (by decide) 2

/-- C5: an integer step n, the digit string for n, and an explicit
timedelta of n days all construct the very same range state, hence produce
identical value sequences and exhaust at the same position. -/
theorem c5_step_resolution_agrees {start : Int} {tb : Option Int} {n : Int} {s : String}
    (_hn : 1 ≤ n) (hne : s.data ≠ []) (hdig : s.data.all Char.isDigit = true)
    (hval : (natOfDigits s.data : Int) = n) :
    ∃ r : DateRange,
      DateRange.init start tb (.int n) = .ok r ∧
      DateRange.init start tb (.str s) = .ok r ∧
      DateRange.init start tb (.td (n * usPerDay)) = .ok r := by
  refine ⟨⟨start, tb, n * usPerDay⟩, rfl, ?_, rfl⟩
  have hd : dollarBody s.data = s.data := by
    rw [dollarBody]
    cases hg : s.data.getLast? with
    | none => rfl
    | some c =>
      have hc : Char.isDigit c = true :=
        List.all_eq_true.1 hdig c (mem_of_getLastOpt hg)
      show (if c = '\n' then s.data.dropLast else s.data) = s.data
      rw [if_neg (digit_ne_newline hc)]
  have hmatch : reDigitsMatch s.data = some s.data := by
    simp only [reDigitsMatch, hd]
    simp [hne, hdig]
  show DateRange.init start tb (.str s) = _
  simp only [DateRange.init, resolveStep, hmatch, hval]

theorem c5_step_resolution_agrees_witness :
    DateRange.init 0 (some 9) (.int 2) = .ok ⟨0, some 9, 2 * usPerDay⟩ ∧
    DateRange.init 0 (some 9) (.str "2") = .ok ⟨0, some 9, 2 * usPerDay⟩ ∧
    DateRange.init 0 (some 9) (.td (2 * usPerDay)) = .ok ⟨0, some 9, 2 * usPerDay⟩ := by
  obtain ⟨r, h1, h2, h3⟩ :=
    @c5_step_resolution_agrees 0 (some 9) 2 "2"
      (by decide) (by decide) (by decide) (by decide)
  have h1' : DateRange.init 0 (some 9) (.int 2) = .ok ⟨0, some 9, 2 * usPerDay⟩ := by decide
  rw [h1] at h1'
  injection h1' with hr
  rw [hr] at h1 h2 h3
  exact ⟨h1, h2, h3⟩

/-- C8: an unbounded range with a one-day step never exhausts, and its n-th
produced value is the start plus n days. -/
theorem c8_unbounded_daily {D : Int} {r : DateRange}
    (h : DateRange.init D none (.td usPerDay) = .ok r) :
    ∀ n : Nat, ((advanceN n r).next).1 = some (D + (n : Int) * usPerDay) := by
  have hr : r = ⟨D, none, usPerDay⟩ := by
    rw [init_td] at h
    injection h with h
    exact h.symm
  subst hr
  intro n
  rw [advanceN_unbounded usPerDay n D, next_unbounded]

theorem c8_unbounded_daily_witness :
    ((advanceN 3 (⟨7, none, usPerDay⟩ : DateRange)).next).1 =
      some (7 + ((3 : Nat) : Int) * usPerDay) :=
  c8_unbounded_daily (D := 7) rfl 3

/-- C9: an advancement call that signals exhaustion leaves the range state
(current date, bound and step) exactly as it was, and the state changes
only on calls that return a value. -/
theorem c9_failed_call_preserves_state (r : DateRange) :
    ((r.next).1 = none → (r.next).2 = r) ∧ ((r.next).2 ≠ r → ∃ v, (r.next).1 = some v) :=
  ⟨fun h => next_none_snd h, fun h => next_snd_ne h⟩

theorem c9_failed_call_preserves_state_witness :
    (DateRange.next ⟨5, some 3, 1⟩).2 = ⟨5, some 3, 1⟩ :=
  (c9_failed_call_preserves_state ⟨5, some 3, 1⟩).1 (by decide)

/-- C10: a bounded range constructed with start strictly above the bound
signals exhaustion on the very first advancement and produces no values. -/
theorem c10_start_above_bound {start bound : Int} {st : StepArg} {r : DateRange}
    (hgt : bound < start) (h : DateRange.init start (some bound) st = .ok r) :
    ((r.next).1 = none) ∧ ∀ m : Nat, (takeRange m r).1 = [] := by
  obtain ⟨t, _, hr⟩ := init_ok_elim h
  subst hr
  constructor
  · rw [next_of_gt hgt]
  · intro m
    rw [takeRange_exhausted hgt m]

theorem c10_start_above_bound_witness :
    ((DateRange.next ⟨5, some 3, 1⟩).1 = none) ∧
    (takeRange 4 (⟨5, some 3, 1⟩ : DateRange)).1 = [] := by
  have h := @c10_start_above_bound 5 3 (.td 1) ⟨5, some 3, 1⟩ (by decide) (by decide)
  exact ⟨h.1, h.2 4⟩

/-! Parser helpers. -/

theorem dollarBody_eq_self {cs : List Char} (h : ∀ c, cs.getLast? = some c → c ≠ '\n') :
    dollarBody cs = cs := by
  rw [dollarBody]
  cases hg : cs.getLast? with
  | none => rfl
  | some c =>
    show (if c = '\n' then cs.dropLast else cs) = cs
    rw [if_neg (h c hg)]

theorem pyStrip_dollarBody (cs : List Char) : dollarBody (pyStrip cs) = pyStrip cs := by
  apply dollarBody_eq_self
  intro c hc
  have hrev : ((cs.dropWhile isSpaceChar).reverse.dropWhile isSpaceChar).head? = some c := by
    rw [pyStrip, List.getLast?_reverse] at hc
    exact hc
  have hns := List.head?_dropWhile_not isSpaceChar (cs.dropWhile isSpaceChar).reverse
  rw [hrev] at hns
  intro hcn
  subst hcn
  exact absurd hns (by decide)

theorem updateKwargs_zero (k : Kwargs) (u : String) : updateKwargs k u 0 = k := by
  funext x
  simp [updateKwargs]

theorem updateKwargs_add (k : Kwargs) (u : String) (a b : Nat) :
    updateKwargs (updateKwargs k u a) u b = updateKwargs k u (a + b) := by
  funext x
  simp only [updateKwargs]
  by_cases hx : x = u
  · simp [hx, Nat.add_assoc]
  · simp [hx]

theorem deltaLoop_same_unit {u : String} :
    ∀ (sps : List (List Char)) (ns : List Nat) (acc : Kwargs),
      sps.map parseSpecifier = ns.map (fun n => Except.ok (u, n)) →
      deltaLoop sps acc = .ok (updateKwargs acc u ns.sum) := by
  intro sps
  induction sps with
  | nil =>
    intro ns acc h
    cases ns with
    | nil => simp [deltaLoop, updateKwargs_zero]
    | cons n ns => simp at h
  | cons sp sps ih =>
    intro ns acc h
    cases ns with
    | nil => simp at h
    | cons n ns =>
      simp only [List.map_cons, List.cons.injEq] at h
      obtain ⟨hsp, htl⟩ := h
      simp only [deltaLoop, hsp]
      rw [ih ns (updateKwargs acc u n) htl, updateKwargs_add]
      simp [List.sum_cons]

theorem deltaLoop_append_ok :
    ∀ (pre l : List (List Char)) (acc : Kwargs),
      (∀ p ∈ pre, ∃ u n, parseSpecifier p = .ok (u, n)) →
      ∃ acc', deltaLoop (pre ++ l) acc = deltaLoop l acc' := by
  intro pre
  induction pre with
  | nil => intro l acc _; exact ⟨acc, rfl⟩
  | cons p pre ih =>
    intro l acc h
    obtain ⟨u, n, hp⟩ := h p (by simp)
    simp only [List.cons_append, deltaLoop, hp]
    exact ih l (updateKwargs acc u n) (fun x hx => h x (by simp [hx]))

theorem deltaLoop_error_head {sp : List Char} {rest : List (List Char)} {acc : Kwargs}
    {e : DeltaError} (h : parseSpecifier sp = .error e) :
    deltaLoop (sp :: rest) acc = .error e := by
  simp only [deltaLoop, h]

/-- C4 counterexample: the step string of a digit followed by a newline does
not consist solely of digits and is rejected by the duration parser, yet
construction succeeds with a five-day step, because the anchored digits-only
pattern also matches just before a trailing newline. -/
theorem c4_swallow_counterexample :
    ("5\n".data.all Char.isDigit) = false ∧
    delta "5\n" = .error .invalidSpecifier ∧
    DateRange.init 0 none (.str "5\n") = .ok ⟨0, none, 5 * usPerDay⟩ :=
  ⟨by decide, by decide, by decide⟩

/-- C4 (amended): a string step that fails the anchored digits-only pattern
(which tolerates one trailing newline) and is rejected by the duration
parser is left unresolved, and construction fails with the step-type error
rather than the parse error. -/
theorem c4_parse_failure_swallowed {start : Int} {tb : Option Int} {s : String}
    {e : DeltaError} (hnd : reDigitsMatch s.data = none) (hpe : delta s = .error e) :
    resolveStep (.str s) = .str s ∧
    DateRange.init start tb (.str s) = .error .invalidStep := by
  have h1 : resolveStep (.str s) = .str s := by
    simp only [resolveStep, hnd, hpe]
  exact ⟨h1, by simp only [DateRange.init, h1]⟩

theorem c4_parse_failure_swallowed_witness :
    resolveStep (.str "abc") = .str "abc" ∧
    DateRange.init 0 none (.str "abc") = .error .invalidStep :=
  @c4_parse_failure_swallowed 0 none "abc" DeltaError.invalidSpecifier
    (by decide) (by decide)

/-- C6: specifiers resolving to the same canonical unit accumulate
additively: two spec strings whose specifiers all parse to the same unit
with equal sums yield the same Duration. -/
theorem c6_same_unit_accumulates {s t u : String} {ns ms : List Nat}
    (hs : ((splitComma s.data).map pyStrip).map parseSpecifier
        = ns.map (fun n => Except.ok (u, n)))
    (ht : ((splitComma t.data).map pyStrip).map parseSpecifier
        = ms.map (fun n => Except.ok (u, n)))
    (hsum : ns.sum = ms.sum) :
    delta s = delta t := by
  have h1 := deltaLoop_same_unit _ ns emptyKwargs hs
  have h2 := deltaLoop_same_unit _ ms emptyKwargs ht
  simp only [delta, h1, h2, hsum]

theorem c6_same_unit_accumulates_witness : delta "1 day, 2 days" = delta "3 days" :=
  @c6_same_unit_accumulates "1 day, 2 days" "3 days" "days" [1, 2] [3]
    (by decide) (by decide) (by decide)

theorem takeWhile_append_all {p : Char → Bool} (l₁ l₂ : List Char)
    (h : ∀ x ∈ l₁, p x = true) :
    (l₁ ++ l₂).takeWhile p = l₁ ++ l₂.takeWhile p := by
  induction l₁ with
  | nil => rfl
  | cons a l ih =>
    have ha : p a = true := h a (by simp)
    simp only [List.cons_append, List.takeWhile_cons, ha, if_true]
    rw [ih (fun x hx => h x (by simp [hx]))]

theorem trySplit_eq_some {a rest : List Char} {out : List Char × List Char}
    (h : trySplit a rest = some out) :
    out = (a, rest.dropWhile isSpaceChar) ∧ rest.dropWhile isSpaceChar ≠ [] ∧
      (rest.dropWhile isSpaceChar).all isWordChar = true := by
  by_cases hc : rest.dropWhile isSpaceChar ≠ [] ∧ (rest.dropWhile isSpaceChar).all isWordChar = true
  · rw [trySplit, if_pos hc] at h
    injection h with h
    exact ⟨h.symm, hc⟩
  · rw [trySplit, if_neg hc] at h
    exact Option.noConfusion h

theorem trySplit_some_of {a rest : List Char}
    (h1 : rest.dropWhile isSpaceChar ≠ [])
    (h2 : (rest.dropWhile isSpaceChar).all isWordChar = true) :
    trySplit a rest = some (a, rest.dropWhile isSpaceChar) := by
  rw [trySplit, if_pos ⟨h1, h2⟩]

theorem specGo_first {ds rest : List Char} {out : List Char × List Char} (hne : ds ≠ [])
    (h : trySplit ds rest = some out) :
    specGo ds.reverse rest = some out := by
  cases hr : ds.reverse with
  | nil => exact absurd (List.reverse_eq_nil_iff.1 hr) hne
  | cons c ra =>
    have hds : (c :: ra).reverse = ds := by rw [← hr, List.reverse_reverse]
    simp only [specGo, hds, h]

theorem specMatch_dsw {ds ws us : List Char}
    (hd : ds ≠ []) (hdall : ∀ c ∈ ds, Char.isDigit c = true)
    (hws : ws ≠ []) (hwall : ∀ c ∈ ws, isSpaceChar c = true)
    (hu : us ≠ []) (huall : ∀ c ∈ us, isWordChar c = true) :
    specMatch (ds ++ ws ++ us) = some (ds, us) := by
  obtain ⟨u0, us', rfl⟩ : ∃ u0 us', us = u0 :: us' := by
    cases us with
    | nil => exact absurd rfl hu
    | cons a b => exact ⟨a, b, rfl⟩
  obtain ⟨w0, ws', rfl⟩ : ∃ w0 ws', ws = w0 :: ws' := by
    cases ws with
    | nil => exact absurd rfl hws
    | cons a b => exact ⟨a, b, rfl⟩
  have hdb : dollarBody (ds ++ (w0 :: ws') ++ u0 :: us') = ds ++ (w0 :: ws') ++ u0 :: us' := by
    apply dollarBody_eq_self
    intro c hc
    rw [List.getLast?_append_of_ne_nil _ (by simp)] at hc
    exact word_ne_newline (huall c (mem_of_getLastOpt hc))
  have htake : (ds ++ (w0 :: ws') ++ u0 :: us').takeWhile Char.isDigit = ds := by
    rw [List.append_assoc]
    exact takeWhile_append_cons ds w0 (ws' ++ u0 :: us') hdall
      (space_not_digit (hwall w0 (by simp)))
  have hdrop : (ds ++ (w0 :: ws') ++ u0 :: us').dropWhile Char.isDigit =
      (w0 :: ws') ++ u0 :: us' := by
    rw [List.append_assoc]
    exact dropWhile_append_cons ds w0 (ws' ++ u0 :: us') hdall
      (space_not_digit (hwall w0 (by simp)))
  have h1 : ((w0 :: ws') ++ u0 :: us').dropWhile isSpaceChar = u0 :: us' := by
    rw [dropWhile_append_all _ _ hwall]
    exact dropWhile_cons_false us' (word_not_space (huall u0 (by simp)))
  have h2 : trySplit ds ((w0 :: ws') ++ u0 :: us') = some (ds, u0 :: us') := by
    have := @trySplit_some_of ds ((w0 :: ws') ++ u0 :: us')
      (by rw [h1]; simp) (by rw [h1]; exact List.all_eq_true.2 huall)
    rw [h1] at this
    exact this
  rw [specMatch, hdb, htake, hdrop]
  exact specGo_first hd h2

theorem parseSpecifier_dsw {ds ws us : List Char} {cn : String}
    (hd : ds ≠ []) (hdall : ∀ c ∈ ds, Char.isDigit c = true)
    (hws : ws ≠ []) (hwall : ∀ c ∈ ws, isSpaceChar c = true)
    (hu : us ≠ []) (huall : ∀ c ∈ us, isWordChar c = true)
    (hlk : lookupAlias (String.mk (lowerChars us)) = some cn) :
    parseSpecifier (ds ++ ws ++ us) = .ok (cn, natOfDigits ds) := by
  simp only [parseSpecifier, specMatch_dsw hd hdall hws hwall hu huall, hlk]

theorem pyStrip_eq_self {cs : List Char} {a b : Char}
    (hhead : cs.head? = some a) (ha : isSpaceChar a = false)
    (hlast : cs.getLast? = some b) (hb : isSpaceChar b = false) :
    pyStrip cs = cs := by
  have h1 : cs.dropWhile isSpaceChar = cs := by
    cases cs with
    | nil => rfl
    | cons c rest =>
      simp only [List.head?_cons] at hhead
      injection hhead with h
      subst h
      exact dropWhile_cons_false rest ha
  have h2 : cs.reverse.dropWhile isSpaceChar = cs.reverse := by
    have hrh : cs.reverse.head? = some b := by rw [List.head?_reverse]; exact hlast
    cases hcr : cs.reverse with
    | nil => rfl
    | cons d tail =>
      rw [hcr] at hrh
      simp only [List.head?_cons] at hrh
      injection hrh with h
      subst h
      exact dropWhile_cons_false tail hb
  rw [pyStrip, h1, h2, List.reverse_reverse]

theorem splitComma_no_comma : ∀ (cs : List Char), (∀ c ∈ cs, c ≠ ',') →
    splitComma cs = [cs] := by
  intro cs
  induction cs with
  | nil => intro _; rfl
  | cons c rest ih =>
    intro h
    have hr : splitComma rest = [rest] := ih (fun x hx => h x (by simp [hx]))
    simp only [splitComma, hr]
    rw [if_neg (h c (by simp))]

theorem data_append_space (q x : String) : (q ++ " " ++ x).data = q.data ++ ' ' :: x.data := by
  rw [String.data_append, String.data_append]
  have hsp : (" " : String).data = [' '] := rfl
  rw [hsp, List.append_assoc]
  rfl

theorem delta_single {q u : List Char} {cn : String} {s : String}
    (hsd : s.data = q ++ ' ' :: u)
    (hq : q ≠ []) (hqd : ∀ c ∈ q, Char.isDigit c = true)
    (hu : u ≠ []) (hud : ∀ c ∈ u, isWordChar c = true)
    (hlk : lookupAlias (String.mk (lowerChars u)) = some cn) :
    delta s = .ok (timedeltaOfKwargs (updateKwargs emptyKwargs cn (natOfDigits q))) := by
  obtain ⟨q0, q', rfl⟩ : ∃ q0 q', q = q0 :: q' := by
    cases q with
    | nil => exact absurd rfl hq
    | cons a b => exact ⟨a, b, rfl⟩
  have hsplit : splitComma s.data = [s.data] := by
    apply splitComma_no_comma
    intro c hc
    rw [hsd] at hc
    rcases List.mem_append.1 hc with h | h
    · exact digit_ne_comma (hqd c h)
    · rcases List.mem_cons.1 h with rfl | h
      · decide
      · exact word_ne_comma (hud c h)
  have hstrip : pyStrip s.data = s.data := by
    rw [hsd]
    refine pyStrip_eq_self (a := q0) (b := u.getLast hu) ?_ ?_ ?_ ?_
    · simp
    · exact digit_not_space (hqd q0 (by simp))
    · rw [show (q0 :: q') ++ ' ' :: u = ((q0 :: q') ++ [' ']) ++ u by simp]
      rw [List.getLast?_append_of_ne_nil _ hu]
      exact List.getLast?_eq_getLast_of_ne_nil hu
    · exact word_not_space (hud _ (List.getLast_mem hu))
  have hmain : parseSpecifier s.data = .ok (cn, natOfDigits (q0 :: q')) := by
    rw [hsd, show (q0 :: q') ++ ' ' :: u = (q0 :: q') ++ [' '] ++ u by simp]
    exact parseSpecifier_dsw hq hqd (by simp)
      (by intro c hc; simp only [List.mem_singleton] at hc; subst hc; decide) hu hud hlk
  simp only [delta, hsplit, List.map_cons, List.map_nil, hstrip, deltaLoop, hmain]

/-- C7: a quantity followed by any letter-case variant of an alias parses to
the same Duration as the same quantity followed by the canonical unit name,
and the sample inputs all give a two-day Duration. -/
theorem c7_alias_case_insensitive {q a cn : String}
    (hq : q.data ≠ []) (hqd : q.data.all Char.isDigit = true)
    (ha : a.data ≠ []) (haa : a.data.all Char.isAlpha = true)
    (hlk : lookupAlias (String.mk (lowerChars a.data)) = some cn) :
    delta (q ++ " " ++ a) = delta (q ++ " " ++ cn) ∧
    delta "2 D" = .ok (2 * usPerDay) ∧
    delta "2 day" = .ok (2 * usPerDay) ∧
    delta "2 days" = .ok (2 * usPerDay) := by
  refine ⟨?_, by decide, by decide, by decide⟩
  have hcn5 : cn = "days" ∨ cn = "hours" ∨ cn = "minutes" ∨ cn = "seconds" ∨
      cn = "microseconds" := by
    have hfind := hlk
    rw [lookupAlias] at hfind
    cases hf : UNIT_ALIASES.find? (fun p => p.1 == String.mk (lowerChars a.data)) with
    | none => rw [hf] at hfind; exact Option.noConfusion hfind
    | some pr =>
      rw [hf, Option.map_some'] at hfind
      injection hfind with h
      have hmem : pr ∈ UNIT_ALIASES := List.mem_of_find?_eq_some hf
      have hall : ∀ x ∈ UNIT_ALIASES, x.2 = "days" ∨ x.2 = "hours" ∨ x.2 = "minutes" ∨
          x.2 = "seconds" ∨ x.2 = "microseconds" := by decide
      have := hall pr hmem
      rw [h] at this
      exact this
  have h1 := delta_single (s := q ++ " " ++ a) (data_append_space q a) hq
    (List.all_eq_true.1 hqd) ha (fun c hc => alpha_word (List.all_eq_true.1 haa c hc)) hlk
  rcases hcn5 with rfl | rfl | rfl | rfl | rfl
  · rw [h1, @delta_single q.data ("days").data "days" (q ++ " " ++ "days")
      (data_append_space q "days") hq (List.all_eq_true.1 hqd)
      (by decide) (by decide) (by decide)]
  · rw [h1, @delta_single q.data ("hours").data "hours" (q ++ " " ++ "hours")
      (data_append_space q "hours") hq (List.all_eq_true.1 hqd)
      (by decide) (by decide) (by decide)]
  · rw [h1, @delta_single q.data ("minutes").data "minutes" (q ++ " " ++ "minutes")
      (data_append_space q "minutes") hq (List.all_eq_true.1 hqd)
      (by decide) (by decide) (by decide)]
  · rw [h1, @delta_single q.data ("seconds").data "seconds" (q ++ " " ++ "seconds")
      (data_append_space q "seconds") hq (List.all_eq_true.1 hqd)
      (by decide) (by decide) (by decide)]
  · rw [h1, @delta_single q.data ("microseconds").data "microseconds"
      (q ++ " " ++ "microseconds") (data_append_space q "microseconds") hq
      (List.all_eq_true.1 hqd) (by decide) (by decide) (by decide)]

theorem c7_alias_case_insensitive_witness :
    delta ("2" ++ " " ++ "D") = delta ("2" ++ " " ++ "days") ∧
    delta "2 D" = .ok (2 * usPerDay) ∧
    delta "2 day" = .ok (2 * usPerDay) ∧
    delta "2 days" = .ok (2 * usPerDay) :=
  @c7_alias_case_insensitive "2" "D" "days"
    (by decide) (by decide) (by decide) (by decide) (by decide)

theorem specGo_isSome_of :
    ∀ (ra rest ds tl : List Char), ra.reverse = ds ++ tl → ds ≠ [] →
      (trySplit ds (tl ++ rest)).isSome = true → (specGo ra rest).isSome = true := by
  intro ra
  induction ra with
  | nil =>
    intro rest ds tl hr hne _
    have h0 : ds ++ tl = [] := by simpa using hr.symm
    exact absurd (List.append_eq_nil.1 h0).1 hne
  | cons c ra' ih =>
    intro rest ds tl hr hne hsome
    rcases List.eq_nil_or_concat tl with rfl | ⟨tl', x, rfl⟩
    · have hds : ds = (c :: ra').reverse := by simpa using hr.symm
      rw [List.nil_append] at hsome
      simp only [specGo]
      rw [← hds]
      cases ht : trySplit ds rest with
      | some out => simp
      | none =>
        rw [ht] at hsome
        exact absurd hsome (by simp)
    · rw [List.concat_eq_append] at hr hsome
      have hrev : c :: ra' = x :: (tl'.reverse ++ ds.reverse) := by
        have h0 : (c :: ra').reverse.reverse = (ds ++ (tl' ++ [x])).reverse := by rw [hr]
        rw [List.reverse_reverse] at h0
        rw [h0]
        simp [List.reverse_append]
      injection hrev with hcx hra
      subst hcx
      have hrarev : ra'.reverse = ds ++ tl' := by
        rw [hra]
        simp [List.reverse_append]
      have hsome' : (trySplit ds (tl' ++ (c :: rest))).isSome = true := by
        have heq : (tl' ++ [c]) ++ rest = tl' ++ (c :: rest) := by simp
        rw [heq] at hsome
        exact hsome
      have hih := ih (c :: rest) ds tl' hrarev hne hsome'
      simp only [specGo]
      cases ht : trySplit ((c :: ra').reverse) rest with
      | some out => simp
      | none => simpa using hih

theorem specGo_sound :
    ∀ (ra rest : List Char) (out : List Char × List Char),
      (∀ c ∈ ra, Char.isDigit c = true) → specGo ra rest = some out →
      out.1 ≠ [] ∧ (∀ c ∈ out.1, Char.isDigit c = true) ∧ out.2 ≠ [] ∧
        (∀ c ∈ out.2, isWordChar c = true) ∧
        ∃ ws, (∀ c ∈ ws, isSpaceChar c = true) ∧
          ra.reverse ++ rest = out.1 ++ ws ++ out.2 := by
  intro ra
  induction ra with
  | nil =>
    intro rest out _ h
    exact Option.noConfusion h
  | cons c ra' ih =>
    intro rest out hdig h
    simp only [specGo] at h
    cases ht : trySplit ((c :: ra').reverse) rest with
    | some r =>
      rw [ht] at h
      injection h with hro
      obtain ⟨hout, hne2, hall⟩ := trySplit_eq_some ht
      have hop : out = ((c :: ra').reverse, rest.dropWhile isSpaceChar) := by
        rw [← hro, hout]
      subst hop
      refine ⟨by simp, ?_, hne2, fun x hx => List.all_eq_true.1 hall x hx,
        rest.takeWhile isSpaceChar, ?_, ?_⟩
      · intro x hx
        exact hdig x (List.mem_reverse.1 hx)
      · intro x hx
        exact List.mem_takeWhile_imp hx
      · rw [List.append_assoc, List.takeWhile_append_dropWhile]
    | none =>
      rw [ht] at h
      have hih := ih (c :: rest) out (fun x hx => hdig x (by simp [hx])) h
      obtain ⟨h1, h2, h3, h4, ws, h5, h6⟩ := hih
      refine ⟨h1, h2, h3, h4, ws, h5, ?_⟩
      rw [List.reverse_cons, List.append_assoc, List.singleton_append]
      exact h6

theorem specMatch_some_wordShape {cs : List Char} {out : List Char × List Char}
    (hdb : dollarBody cs = cs) (h : specMatch cs = some out) : WordShape cs := by
  rw [specMatch, hdb] at h
  have hdig : ∀ c ∈ (cs.takeWhile Char.isDigit).reverse, Char.isDigit c = true := by
    intro c hc
    exact List.mem_takeWhile_imp (List.mem_reverse.1 hc)
  obtain ⟨h1, h2, h3, h4, ws, h5, h6⟩ := specGo_sound _ _ out hdig h
  rw [List.reverse_reverse, List.takeWhile_append_dropWhile] at h6
  exact ⟨out.1, ws, out.2, h6, h1, h2, h5, h3, h4⟩

theorem wordShape_specMatch_isSome {cs : List Char} (hdb : dollarBody cs = cs)
    (h : WordShape cs) : (specMatch cs).isSome = true := by
  obtain ⟨ds, ws, us, rfl, hd, hdall, hwall, hu, huall⟩ := h
  obtain ⟨u0, us', rfl⟩ : ∃ u0 us', us = u0 :: us' := by
    cases us with
    | nil => exact absurd rfl hu
    | cons a b => exact ⟨a, b, rfl⟩
  rw [specMatch, hdb]
  have htk : (ds ++ ws ++ u0 :: us').takeWhile Char.isDigit =
      ds ++ (ws ++ u0 :: us').takeWhile Char.isDigit := by
    rw [List.append_assoc, takeWhile_append_all _ _ hdall]
  have hdp : (ds ++ ws ++ u0 :: us').dropWhile Char.isDigit =
      (ws ++ u0 :: us').dropWhile Char.isDigit := by
    rw [List.append_assoc, dropWhile_append_all _ _ hdall]
  apply specGo_isSome_of _ _ ds ((ws ++ u0 :: us').takeWhile Char.isDigit)
  · rw [List.reverse_reverse, htk]
  · exact hd
  · rw [hdp, List.takeWhile_append_dropWhile]
    have h1 : (ws ++ u0 :: us').dropWhile isSpaceChar = u0 :: us' := by
      rw [dropWhile_append_all _ _ hwall]
      exact dropWhile_cons_false us' (word_not_space (huall u0 (by simp)))
    rw [trySplit_some_of (by rw [h1]; simp) (by rw [h1]; exact List.all_eq_true.2 huall)]
    rfl

theorem parseSpecifier_eq_invalidSpecifier_iff {sp : List Char} :
    parseSpecifier sp = .error .invalidSpecifier ↔ specMatch sp = none := by
  constructor
  · intro h
    cases hm : specMatch sp with
    | none => rfl
    | some out =>
      obtain ⟨ds, us⟩ := out
      simp only [parseSpecifier, hm] at h
      cases hlk : lookupAlias (String.mk (lowerChars us)) with
      | none =>
        rw [hlk] at h
        simp at h
      | some cn =>
        rw [hlk] at h
        simp at h
  · intro h
    simp only [parseSpecifier, h]

/-- C3 counterexample: the trimmed specifier of "2 days_" does not match
the specification's shape (digits, optional whitespace, a unit of letters
only), yet parsing fails with the invalid-unit error instead of the
invalid-specifier error, because the code's pattern accepts any word
characters as the unit group. -/
theorem c3_letters_only_counterexample :
    lettersOnlyShapeSpec (pyStrip "2 days_".data) = false ∧
    delta "2 days_" = .error .invalidUnit :=
  ⟨by decide, by decide⟩

/-- C3 (amended): a trimmed specifier fails with the invalid-specifier
error exactly when it cannot be decomposed as digits, optional whitespace
and a nonempty unit of word characters (letters, digits or underscore); a
specifier that matches the pattern but whose unit is not in the alias table
fails with the invalid-unit error; the first failing specifier decides the
parse result; and the two sample inputs fail as stated. -/
theorem c3_error_classification :
    (∀ s : String, ∀ sp ∈ (splitComma s.data).map pyStrip,
       (parseSpecifier sp = .error .invalidSpecifier ↔ ¬ WordShape sp)) ∧
    (∀ (sp ds us : List Char), specMatch sp = some (ds, us) →
       lookupAlias (String.mk (lowerChars us)) = none →
       parseSpecifier sp = .error .invalidUnit) ∧
    (∀ (s : String) (pre : List (List Char)) (sp : List Char)
       (rest : List (List Char)) (e : DeltaError),
       (splitComma s.data).map pyStrip = pre ++ sp :: rest →
       (∀ p ∈ pre, ∃ u n, parseSpecifier p = .ok (u, n)) →
       parseSpecifier sp = .error e → delta s = .error e) ∧
    delta "two days" = .error .invalidSpecifier ∧
    delta "2 fortnights" = .error .invalidUnit := by
  refine ⟨?_, ?_, ?_, by decide, by decide⟩
  · intro s sp hsp
    obtain ⟨cs0, _, rfl⟩ := List.mem_map.1 hsp
    have hdb := pyStrip_dollarBody cs0
    rw [parseSpecifier_eq_invalidSpecifier_iff]
    constructor
    · intro hnone hshape
      have := wordShape_specMatch_isSome hdb hshape
      rw [hnone] at this
      exact absurd this (by simp)
    · intro hshape
      cases hm : specMatch (pyStrip cs0) with
      | none => rfl
      | some out => exact absurd (specMatch_some_wordShape hdb hm) hshape
  · intro sp ds us hm hlk
    simp only [parseSpecifier, hm, hlk]
  · intro s pre sp rest e hsplit hpre hsp
    simp only [delta, hsplit]
    obtain ⟨acc', hacc⟩ := deltaLoop_append_ok pre (sp :: rest) emptyKwargs hpre
    rw [hacc, deltaLoop_error_head hsp]

theorem c3_error_classification_witness :
    parseSpecifier (pyStrip "2 fortnights".data) = .error .invalidUnit ∧
    delta "two days" = .error .invalidSpecifier :=
  ⟨c3_error_classification.2.1 (pyStrip "2 fortnights".data) "2".data "fortnights".data
      (by decide) (by decide),
   c3_error_classification.2.2.2.1⟩

end Daterange
